import Mathlib

/-!
Verification development for the nightmarket synchronization helpers.

The definitions below are shallow embeddings of the Go sources:
the cryptographic object clerk (`lib/cryptapi`), the reference helper
(`lib/githelper`), the blob helper (`lib/annexhelper`) and the blob-helper
protocol driver (`lib/annexremote`).  External collaborators (the age
encryption library, SHA-256, the git subprocesses, the broker) are modelled
by idealized functions or taken as parameters, as documented at each
definition.  Byte payloads are modelled as `List Nat`.
-/

namespace Nightmarket

/-! ### Object clerk: envelope crypto (`lib/cryptapi/crypt.go`) -/

/-- The constant `Version = 1` of the cryptapi package. -/
def cryptapiVersion : Int := 1

/-- Envelope header written into the encrypted stream (`StreamHeader` in the
source: `{version:int, device:string, infix:string}`).  The source's field
`Infix` is named `ifx` here. -/
structure StreamHeader where
  version : Int
  device : String
  ifx : String
deriving DecidableEq, Repr

/-- The plaintext content of one age stream: the 4-byte length-prefixed JSON
header written by `writeHeader`, followed by the payload bytes.  The length
prefix makes the split between header and payload unambiguous and
`json.Marshal`/`json.Unmarshal` are inverse on `StreamHeader`, so the stream
is modelled as the pair that `writeHeader`/`grabHeader` write and read. -/
structure AgeMessage where
  header : StreamHeader
  payload : List Nat
deriving DecidableEq, Repr

/-- An age (scrypt passphrase) ciphertext.  filippo.io/age is an external
collaborator; it is modelled as an ideal authenticated cipher: a ciphertext
determines the passphrase it was built under and the enclosed plaintext, and
decryption succeeds exactly under that passphrase. -/
structure AgeCiphertext where
  passphrase : String
  message : AgeMessage
deriving DecidableEq, Repr

/-- `age.Encrypt` under a scrypt recipient for `secretKey` (ideal model). -/
def ageEncrypt (secretKey : String) (m : AgeMessage) : AgeCiphertext :=
  ⟨secretKey, m⟩

/-- `age.Decrypt` under a scrypt identity for `secretKey` (ideal model):
authentication fails unless the ciphertext was produced under the same
passphrase. -/
def ageDecrypt (secretKey : String) (c : AgeCiphertext) : Option AgeMessage :=
  if c.passphrase = secretKey then some c.message else none

/-- Lower-hex SHA-256 of a ciphertext, as used for the `hash` component of
bucket paths.  SHA-256 is an external collaborator, modelled as an ideal
(collision-free, deterministic) digest: the digest of a ciphertext is the
ciphertext value itself. -/
def sha256Model (c : AgeCiphertext) : AgeCiphertext := c

/-- The clerk fields that the clerk-level operations consume: the secret key
from `ClerkConfig.SecretKey` and the device name from the space
configuration. -/
structure Clerk where
  secretKey : String
  deviceName : String
deriving DecidableEq, Repr

/-- `Clerk.PutEncryptObjectStream`: stream authenticated encryption of the
envelope header `{version: 1, device: <device_name>, infix: <pathIfx>}`
followed by the payload.  Returns the ciphertext that is uploaded; the
broker-composed bucket path carries the device name, the caller's infix and
the SHA-256 digest of this ciphertext. -/
def putEncryptObjectStream (c : Clerk) (pathIfx : String) (data : List Nat) :
    AgeCiphertext :=
  ageEncrypt c.secretKey ⟨⟨cryptapiVersion, c.deviceName, pathIfx⟩, data⟩

/-- Distinct failure exits of `Clerk.GetDecryptObjectStream`. -/
inductive GetError where
  | hashMismatch
  | decryptFailed
  | versionMismatch
  | deviceMismatch
  | infixMismatch
deriving DecidableEq, Repr

/-- Whether an `Except` result is an error. -/
def isError {ε α : Type} : Except ε α → Bool
  | .error _ => true
  | .ok _ => false

/-- `Clerk.GetDecryptObjectStream` after `SplitPath` has extracted the
`(device, ifx, hash)` components of the bucket path: drain the download while
hashing it, compare the digest against the path's hash component, decrypt,
read the envelope header, and check its version, device and infix against
the path before returning the remaining plaintext. -/
def getDecryptObjectStream (c : Clerk) (device ifx : String)
    (hash : AgeCiphertext) (downloaded : AgeCiphertext) :
    Except GetError (List Nat) :=
  if sha256Model downloaded ≠ hash then .error .hashMismatch
  else
    match ageDecrypt c.secretKey downloaded with
    | none => .error .decryptFailed
    | some m =>
      if m.header.version ≠ cryptapiVersion then .error .versionMismatch
      else if m.header.device ≠ device then .error .deviceMismatch
      else if m.header.ifx ≠ ifx then .error .infixMismatch
      else .ok m.payload

/-- The loop of `helper.mergeCommits`, parameterized by the host
`git merge-base --is-ancestor` subprocess (an external collaborator),
modelled as a relation `anc` with `anc a b = true` meaning `a` is an
ancestor of `b`: if the current proposal is an ancestor of the next commit,
the next commit takes precedence; if the next commit is an ancestor of the
proposal, the proposal is kept; otherwise the branch is disputed and the
empty string is returned immediately. -/
def mergeLoop (anc : String → String → Bool) (proposed : String) :
    List String → String
  | [] => proposed
  | commit :: rest =>
    if anc proposed commit then mergeLoop anc commit rest
    else if anc commit proposed then mergeLoop anc proposed rest
    else ""

/-- `helper.mergeCommits`: the empty string means the commits are disputed,
otherwise the latest commit is returned.  The Go function indexes `sha1s[0]`
and is only called on non-empty lists; the empty case is mapped to "". -/
def mergeCommits (anc : String → String → Bool) : List String → String
  | [] => ""
  | first :: rest => mergeLoop anc first rest

/-- The totally-true ancestor relation, used to instantiate hypotheses in
witnesses. -/
def ancTotal : String → String → Bool := fun _ _ => true

/-- A concrete ancestor relation forming a partial order on the three
commits `a`, `b`, `c`: `a` and `b` are unrelated and both are ancestors
of the merge commit `c`. -/
def ancEx : String → String → Bool := fun x y =>
  (x == y) || (x == "a" && y == "c") || (x == "b" && y == "c")

/-- One step of the §4.D.3 merge loop as the spec words it, with `none`
standing for the disputed (early-return) outcome. -/
def mergeStepSpec (anc : String → String → Bool) (st : Option String)
    (c : String) : Option String :=
  match st with
  | none => none
  | some proposed =>
    if anc proposed c then some c
    else if anc c proposed then some proposed
    else none

/-- Modelled from the spec (§4.D.3): start with the first commit as the
proposal and fold the merge step over the remaining commits; a disputed
outcome is final and is reported as the empty string. -/
def mergeCommitsSpec (anc : String → String → Bool) : List String → String
  | [] => ""
  | first :: rest => (rest.foldl (mergeStepSpec anc) (some first)).getD ""

/-! ### String scanning (models of the Go standard library calls used) -/

/-- `strings.Split(s, sep)` for a one-character separator, on the character
list of the string (Go semantics: always at least one group, empty groups
preserved). -/
def splitOnChar (sep : Char) : List Char → List (List Char)
  | [] => [[]]
  | c :: rest =>
    match splitOnChar sep rest with
    | [] => [[]]
    | g :: gs => if c = sep then [] :: g :: gs else (c :: g) :: gs

/-- The modulus of Go's uint64 arithmetic. -/
def U64 : Nat := 2 ^ 64

/-- `strconv.ParseUint(s, 10, 64)`: non-empty, decimal digits only, value
below 2^64. -/
def parseUint64 (s : String) : Option Nat :=
  if s.data = [] then none
  else if s.data.all (fun c => c.isDigit) then
    let v := s.data.foldl (fun a c => a * 10 + (c.toNat - 48)) 0
    if v < U64 then some v else none
  else none

/-! ### Bucket paths and pack infixes (`cryptapi.SplitPath`, `githelper`) -/

/-- `cryptapi.SplitPath`: the device is the part before the first `/`, the
hash the part after the last `#` and the infix the part between; the shape
is invalid if a separator is missing, the last `#` does not come strictly
after the first `/`, or any component is empty. -/
def splitPath (path : String) : Option (String × String × String) :=
  let cs := path.data
  match cs.findIdx? (· = '/'), cs.reverse.findIdx? (· = '#') with
  | some s1, some j =>
    let s2 := cs.length - 1 - j
    if s2 ≤ s1 then none
    else
      let device := cs.take s1
      let ifx := (cs.drop (s1 + 1)).take (s2 - (s1 + 1))
      let hash := cs.drop (s2 + 1)
      if device = [] ∨ ifx = [] ∨ hash = [] then none
      else some (⟨device⟩, ⟨ifx⟩, ⟨hash⟩)
  | _, _ => none

/-- `githelper.decodeInfix`: split the infix on `-`; a first field other
than `push` is not an error but "not a push" (`.ok none`); a push infix
must have exactly three fields with both indices decimal uint64 values.
The Go error messages are abstracted to short strings. -/
def infixDecode (ifx : String) : Except String (Option (Nat × Nat)) :=
  let parts := (splitOnChar '-' ifx.data).map (fun g => (⟨g⟩ : String))
  if parts.headD "" ≠ "push" then .ok none
  else if parts.length ≠ 3 then .error "invalid filename infix"
  else
    match parseUint64 (parts.getD 1 ""), parseUint64 (parts.getD 2 "") with
    | some d, some g => .ok (some (d, g))
    | _, _ => .error "invalid index"

/-- `githelper.encodeInfix`: `fmt.Sprintf("push-%d-%d", ...)`. -/
def infixEncode (deviceIndex globalIndex : Nat) : String :=
  "push-" ++ toString deviceIndex ++ "-" ++ toString globalIndex

/-- Device, device index and global index of a well-formed push pack path
(the combination of `SplitPath` and `decodeInfix` used by `listDownloads`
and `nextPackName`; `none` for paths that are unsplittable, undecodable or
not push packs). -/
def packInfo (p : String) : Option (String × Nat × Nat) :=
  match splitPath p with
  | none => none
  | some (dev, ifx, _) =>
    match infixDecode ifx with
    | .ok (some (d, g)) => some (dev, d, g)
    | _ => none

/-! ### `helper.listDownloads` -/

/-- The merged-pack subtraction loop of `listDownloads`: every previously
merged pack must still be present in the bucket listing (else the fatal
"previously downloaded pack is gone" error) and is removed from the
download set. -/
def removeMergedPacks : List String → List String → Except String (List String)
  | avail, [] => .ok avail
  | avail, p :: ps =>
    if p ∈ avail then removeMergedPacks (avail.erase p) ps
    else .error "previously downloaded pack is gone"

/-- The classification loop of `listDownloads`: every remaining path must
split and its infix must decode; non-push infixes are skipped silently;
push paths are kept together with their global index. -/
def classifyPushes : List String → Except String (List (String × Nat))
  | [] => .ok []
  | p :: ps =>
    match splitPath p with
    | none => .error "invalid path"
    | some (_, ifx, _) =>
      match infixDecode ifx with
      | .error e => .error e
      | .ok none => classifyPushes ps
      | .ok (some (_, g)) =>
        match classifyPushes ps with
        | .error e => .error e
        | .ok rest => .ok ((p, g) :: rest)

/-- Ascending order on download entries by global index (the comparison
passed to `sort.Slice`). -/
def globalLE (a b : String × Nat) : Prop := a.2 ≤ b.2

instance : DecidableRel globalLE := fun a b => Nat.decLe a.2 b.2

instance : IsTotal (String × Nat) globalLE := ⟨fun a b => Nat.le_total a.2 b.2⟩

instance : IsTrans (String × Nat) globalLE := ⟨fun _ _ _ h1 h2 => Nat.le_trans h1 h2⟩

/-- `helper.listDownloads`: remove the already-merged packs from the bucket
listing (a merged pack missing from the listing is fatal), keep the push
packs and order them by ascending global index.  The Go map iteration order
and the `sort.Slice` tie order are unspecified; the model iterates in
listing order and sorts stably, one admissible execution. -/
def listDownloads (objects mergedPacks : List String) :
    Except String (List String) :=
  match removeMergedPacks objects.dedup mergedPacks with
  | .error e => .error e
  | .ok remaining =>
    match classifyPushes remaining with
    | .error e => .error e
    | .ok keyed => .ok ((keyed.insertionSort globalLE).map Prod.fst)

/-- Whether a path is a well-formed push pack path (kept by the
classification loop). -/
def isPushPath (p : String) : Bool :=
  match packInfo p with
  | some _ => true
  | none => false

/-- The global index of a well-formed push pack path (0 otherwise). -/
def pushKeyD (p : String) : Nat :=
  match packInfo p with
  | some (_, _, g) => g
  | none => 0

/-- Whether a bucket path passes `listDownloads` without an error: it must
split and its infix must decode (possibly as a non-push namespace). -/
def wellFormedPath (p : String) : Bool :=
  match splitPath p with
  | none => false
  | some (_, ifx, _) =>
    match infixDecode ifx with
    | .error _ => false
    | .ok _ => true

/-- The keyed download entry that the classification loop produces for a
push pack path (`none` for the others). -/
def pushEntry (p : String) : Option (String × Nat) :=
  match packInfo p with
  | some (_, _, g) => some (p, g)
  | none => none

/-! ### `helper.nextPackName` -/

/-- One update of a running "next index": `if idx >= next { next = idx + 1 }`
in Go uint64 arithmetic (the increment is taken modulo 2^64). -/
def stepIdx (next idx : Nat) : Nat :=
  if idx ≥ next then (idx + 1) % U64 else next

/-- The accumulation loop of `helper.nextPackName` over `MergedPacks`:
`nD`/`nG` are the running next-device/next-global indices and `obs` the
device indices already observed for our own device.  Unsplittable,
undecodable or non-push pack names are fatal, as is a duplicate own device
index. -/
def nextPackLoop (deviceName : String) :
    List String → Nat → Nat → List Nat → Except String (Nat × Nat × List Nat)
  | [], nD, nG, obs => .ok (nD, nG, obs)
  | p :: ps, nD, nG, obs =>
    match packInfo p with
    | none => .error "invalid pack name"
    | some (dev, d, g) =>
      if dev = deviceName then
        if d ∈ obs then .error "duplicate pack sequence number"
        else
          nextPackLoop deviceName ps (stepIdx nD d) (stepIdx nG g) (obs ++ [d])
      else
        nextPackLoop deviceName ps nD (stepIdx nG g) obs

/-- `helper.nextPackName`: accumulate the next indices over the merged
packs, require the observed own device indices to be contiguous from 0, and
return `push-<nextDeviceIndex>-<nextGlobalIndex>`. -/
def nextPackName (mergedPacks : List String) (deviceName : String) :
    Except String String :=
  match nextPackLoop deviceName mergedPacks 0 0 [] with
  | .error e => .error e
  | .ok (nD, nG, obs) =>
    if (List.range nD).all (fun i => decide (i ∈ obs)) then
      .ok (infixEncode nD nG)
    else .error "non-contiguous sequence numbers detected"

/-- The device indices of our own packs among the merged packs (order of
`MergedPacks`). -/
def ownDeviceIndices (mergedPacks : List String) (deviceName : String) :
    List Nat :=
  mergedPacks.filterMap (fun p =>
    match packInfo p with
    | some (dev, d, _) => if dev = deviceName then some d else none
    | none => none)

/-- The global indices of all merged packs (order of `MergedPacks`). -/
def allGlobalIndices (mergedPacks : List String) : List Nat :=
  mergedPacks.filterMap (fun p => (packInfo p).map (fun t => t.2.2))

/-- One more than the maximum of a list of indices, `0` if there are none
(the spec's formula for the next device/global index). -/
def succOfMax (l : List Nat) : Nat :=
  if l.isEmpty then 0 else l.foldr max 0 + 1

/-! ### Blob-helper protocol driver (`annexremote`): TRANSFER lines -/

/-- The `TRANSFER` arm of `GitAnnex.command`: the line is split on single
spaces (`strings.Split(line, " ")`); a transfer line needs at least four
fields whose second is `STORE` or `RETRIEVE`; the key is the third field
and the file path passed to the helper is `strings.Join(arguments[3:], "")`
— the remaining fields joined with the empty separator. -/
def parseTransferLine (line : String) : Option (String × String × String) :=
  match (splitOnChar ' ' line.data).map (fun g => (⟨g⟩ : String)) with
  | verb0 :: dir :: key :: rest =>
    if verb0 = "TRANSFER" ∧ (dir = "STORE" ∨ dir = "RETRIEVE") ∧ rest ≠ [] then
      some (dir, key, String.join rest)
    else none
  | _ => none

/-! ### Pseudo-ref encoding and push preparation (`githelper`) -/

/-- The reserved synthetic device name (`mergeDevice = "latest"`). -/
def mergeDevice : String := "latest"

/-- `branchPrefix = "refs/heads/"`. -/
def branchPref : String := "refs/heads/"

/-- `specialAnnexPrefix = "synced/"`. -/
def specialAnnexPref : String := "synced/"

/-- `specialAnnexPath = "synced/git-annex"`. -/
def specialAnnexPath : String := "synced/git-annex"

/-- The githelper pack version constant (`version = 1`). -/
def githelperVersion : Int := 1

/-- `gitremote.PartiallyValidateRefName`: non-empty and every byte strictly
between space (0x20) and `~` (0x7E).  Go iterates the UTF-8 bytes; every
byte of a non-ASCII character is ≥ 0x80 ≥ `~`, so the per-character check
is equivalent. -/
def partiallyValidateRefName (ref : String) : Bool :=
  !ref.data.isEmpty && ref.data.all (fun c => 32 < c.toNat && c.toNat < 126)

/-- `strings.SplitN(s, sep, 2)` for a one-character separator: `none` when
the separator does not occur (Go returns a single field, which the callers
treat as an error). -/
def splitFirst (sep : Char) (cs : List Char) : Option (List Char × List Char) :=
  match cs.findIdx? (· = sep) with
  | none => none
  | some i => some (cs.take i, cs.drop (i + 1))

/-- `githelper.decodePseudoRef`: validate the ref name, strip the
`refs/heads/` prefix, special-case `synced/git-annex` under the `latest`
device, transpose `synced/<dev>/<rest>` into `(<dev>, synced/<rest>)`, and
otherwise split `<dev>/<rest>`. -/
def decodePseudoRef (ref : String) : Except String (String × String) :=
  if ¬ partiallyValidateRefName ref then .error "invalid ref name"
  else if ¬ branchPref.data.isPrefixOf ref.data then .error "invalid remote ref"
  else
    let rest : List Char := ref.data.drop branchPref.length
    if (⟨rest⟩ : String) = specialAnnexPath then .ok (mergeDevice, specialAnnexPath)
    else if specialAnnexPref.data.isPrefixOf rest then
      match splitFirst '/' (rest.drop specialAnnexPref.length) with
      | none => .error "invalid remote ref"
      | some (a, b) => .ok (⟨a⟩, specialAnnexPref ++ ⟨b⟩)
    else
      match splitFirst '/' rest with
      | none => .error "invalid remote ref"
      | some (a, b) => .ok (⟨a⟩, ⟨b⟩)

/-- One push instruction (`gitremote.PushRef`). -/
structure PushRef where
  force : Bool
  source : String
  dest : String
deriving DecidableEq, Repr

/-- The decoded first line of a pack (`githelper.packHeader`), with the
branch map as an association list. -/
structure PackHeader where
  version : Int
  branches : List (String × String)
deriving DecidableEq, Repr

/-- Insert-or-replace into an association list (the model of a Go map
write `m[k] = v`). -/
def insertAssoc {α : Type} (k : String) (v : α) :
    List (String × α) → List (String × α)
  | [] => [(k, v)]
  | (k', v') :: rest =>
    if k' = k then (k, v) :: rest else (k', v') :: insertAssoc k v rest

/-- The per-ref tail of the `preparePush` loop, after the device has been
resolved: resolve the source commit via `git rev-parse` (external, the
`revParse` parameter), check an in-batch update of the same branch for a
history rewind unless force-pushing, record the branch and append the
commit to the pack plan. -/
def preparePushStep (revParse : String → Option String)
    (anc : String → String → Bool) (ref : PushRef) (branch : String)
    (branches : List (String × String)) (plan : List String) :
    Except String (List (String × String) × List String) :=
  match revParse ref.source with
  | none => .error "rev-parse failed"
  | some commitHash =>
    match branches.lookup branch with
    | some previousHash =>
      if ¬ anc previousHash commitHash = true ∧ ref.force = false then
        .error "non-force push would have rewound history"
      else .ok (insertAssoc branch commitHash branches, plan ++ [commitHash])
    | none => .ok (insertAssoc branch commitHash branches, plan ++ [commitHash])

/-- The per-ref loop of `helper.preparePush`: decode the destination; a
`latest` destination is rewritten to the caller's own device; any other
device that is not the caller's is an error. -/
def preparePushLoop (revParse : String → Option String)
    (anc : String → String → Bool) (deviceName : String) :
    List PushRef → List (String × String) → List String →
    Except String (List (String × String) × List String)
  | [], branches, plan => .ok (branches, plan)
  | ref :: refs, branches, plan =>
    match decodePseudoRef ref.dest with
    | .error e => .error e
    | .ok (device, branch) =>
      if device = mergeDevice then
        match preparePushStep revParse anc ref branch branches plan with
        | .error e => .error e
        | .ok (b', p') => preparePushLoop revParse anc deviceName refs b' p'
      else if device ≠ deviceName then
        .error "attempt to push to a branch of another device"
      else
        match preparePushStep revParse anc ref branch branches plan with
        | .error e => .error e
        | .ok (b', p') => preparePushLoop revParse anc deviceName refs b' p'

/-- First-occurrence deduplication (the `knownLookup` set of
`preparePush`). -/
def dedupKeepFirst (seen : List String) : List String → List String
  | [] => []
  | s :: rest =>
    if s ∈ seen then dedupKeepFirst seen rest
    else s :: dedupKeepFirst (s :: seen) rest

/-- `helper.preparePush` (the RefDB is assumed loaded; its
`DeviceBranches` field is passed as an association list, and Go's map
iteration order for the exclusion lines is fixed to the list order, one
admissible execution): process the refs, then append a deduplicated
`^<sha1>` exclusion line for every commit already known to the RefDB. -/
def preparePush (revParse : String → Option String)
    (anc : String → String → Bool) (deviceName : String)
    (deviceBranches : List (String × List (String × String)))
    (refs : List PushRef) : Except String (PackHeader × List String) :=
  match preparePushLoop revParse anc deviceName refs [] [] with
  | .error e => .error e
  | .ok (branches, plan) =>
    .ok (⟨githelperVersion, branches⟩,
      plan ++ (dedupKeepFirst []
          (deviceBranches.flatMap (fun db => db.2.map Prod.snd))).map
        (fun s => "^" ++ s))

/-! ### RefDB ingestion (`helper.updateFromHeader`, `helper.synch`) -/

/-- The persisted RefDB (`githelper.refDBState`), maps modelled as
association lists. -/
structure RefDBState where
  deviceBranches : List (String × List (String × String))
  mergedPacks : List String
deriving DecidableEq, Repr

/-- `helper.updateFromHeader`: refuse the reserved `latest` device before
touching the state; otherwise append the pack path to `MergedPacks` and
merge the header's branches into the device's branch map.  (The subsequent
`saveRefDB` persistence is filesystem I/O, outside the model.) -/
def updateFromHeader (db : RefDBState) (device packPath : String)
    (header : PackHeader) : Except String RefDBState :=
  if device = mergeDevice then .error "invalid device name"
  else
    let old : List (String × String) :=
      match db.deviceBranches.lookup device with
      | some m => m
      | none => []
    let merged := header.branches.foldl (fun m kv => insertAssoc kv.1 kv.2 m) old
    .ok ⟨insertAssoc device merged db.deviceBranches,
      db.mergedPacks ++ [packPath]⟩

/-- The ingestion steps of `synch`: for each downloaded pack (bucket path
plus decoded pack header), extract the device from the path and apply
`updateFromHeader`. -/
def ingestPacks (db : RefDBState) :
    List (String × PackHeader) → Except String RefDBState
  | [] => .ok db
  | (packPath, header) :: rest =>
    match splitPath packPath with
    | none => .error "invalid path"
    | some (device, _, _) =>
      match updateFromHeader db device packPath header with
      | .error e => .error e
      | .ok db' => ingestPacks db' rest

/-! ### Blob helper (`annexhelper`) -/

/-- `annexhelper.ObjectMetadata`; the Go `Error` field (set when two bucket
paths share an infix) is abstracted to a flag. -/
structure ObjectMetadata where
  err : Bool
  objectPath : String
deriving DecidableEq, Repr

/-- The loop of `annexhelper.generateObjectMap`: index the bucket paths by
infix; a second path with the same infix overwrites the entry with one
carrying the new path and the duplicate flag. -/
def generateObjectMapLoop :
    List String → List (String × ObjectMetadata) →
    Except String (List (String × ObjectMetadata))
  | [], objMap => .ok objMap
  | objectPath :: rest, objMap =>
    match splitPath objectPath with
    | none => .error "invalid path"
    | some (_, ifx, _) =>
      let om : ObjectMetadata :=
        match objMap.lookup ifx with
        | some _ => ⟨true, objectPath⟩
        | none => ⟨false, objectPath⟩
      generateObjectMapLoop rest (insertAssoc ifx om objMap)

/-- `annexhelper.generateObjectMap`. -/
def generateObjectMap (objects : List String) :
    Except String (List (String × ObjectMetadata)) :=
  generateObjectMapLoop objects []

/-- `annexhelper.keyToInfix`: `"upload-" + clerk.HMAC(key)`.  HMAC-SHA3-256
is an external collaborator, passed as the `hmacOfKey` function. -/
def keyToInfix (hmacOfKey : String → String) (key : String) : String :=
  "upload-" ++ hmacOfKey key

/-- `helper.getObjectMetadata`: look the infix up in the cached map; on a
miss run `syncListLocked`, which refreshes the map from a bucket listing
when the cached data is stale, then look again.  Staleness is wall-clock
time, outside the model; the `refresh` flag selects which admissible
execution is taken on a miss.  Returns the possibly-refreshed map and the
lookup result. -/
def getObjectMetadata (bucket : List String) (refresh : Bool)
    (objectMap : List (String × ObjectMetadata)) (ifx : String) :
    Except String (List (String × ObjectMetadata) × Option ObjectMetadata) :=
  match objectMap.lookup ifx with
  | some md => .ok (objectMap, some md)
  | none =>
    if refresh then
      match generateObjectMap bucket with
      | .error e => .error e
      | .ok m2 => .ok (m2, m2.lookup ifx)
    else .ok (objectMap, none)

/-- `helper.locateFile`: `""` means not found (as in the Go code); an entry
flagged as duplicate is surfaced as an error. -/
def locateFile (hmacOfKey : String → String) (bucket : List String)
    (refresh : Bool) (objectMap : List (String × ObjectMetadata))
    (key : String) :
    Except String (List (String × ObjectMetadata) × String) :=
  match getObjectMetadata bucket refresh objectMap
      (keyToInfix hmacOfKey key) with
  | .error e => .error e
  | .ok (m2, none) => .ok (m2, "")
  | .ok (m2, some md) =>
    if md.err then .error "duplicate files for infix"
    else .ok (m2, md.objectPath)

/-- `helper.addObjectToList`: adding a path whose infix is already cached
is a no-op when the cached path is the same (the background refresh raced
us) and an error otherwise. -/
def addObjectToList (objectMap : List (String × ObjectMetadata))
    (objectPath : String) : Except String (List (String × ObjectMetadata)) :=
  match splitPath objectPath with
  | none => .error "invalid path"
  | some (_, ifx, _) =>
    match objectMap.lookup ifx with
    | some md =>
      if md.objectPath = objectPath then .ok objectMap
      else .error "attempt to add duplicate object to list"
    | none => .ok (insertAssoc ifx ⟨false, objectPath⟩ objectMap)

/-- `helper.TransferStore`: locate the key; a found path means the object
already exists on the remote and nothing is uploaded; otherwise the file is
encrypted and uploaded (`putResult` stands for the broker-chosen
`created_filename` of that upload) and the created path is added to the
cached map.  Returns the resulting cache map and the uploaded path
(`none` when no upload happened). -/
def transferStore (hmacOfKey : String → String) (bucket : List String)
    (refresh : Bool) (objectMap : List (String × ObjectMetadata))
    (key : String) (putResult : String) :
    Except String (List (String × ObjectMetadata) × Option String) :=
  match locateFile hmacOfKey bucket refresh objectMap key with
  | .error e => .error e
  | .ok (m2, path) =>
    if path ≠ "" then .ok (m2, none)
    else
      match addObjectToList m2 putResult with
      | .error e => .error e
      | .ok m3 => .ok (m3, some putResult)

/-- C1: encrypting a payload and decrypting the result under the matching
`(device, infix, hash)` path components returns the payload byte-for-byte;
decryption fails under a different secret key, on any altered ciphertext, on
any wrong path component (device, infix or hash), and on any envelope whose
version is not 1. -/
theorem c1_put_get_roundtrip (c : Clerk) (ifx : String) (data : List Nat) :
    getDecryptObjectStream c c.deviceName ifx
        (sha256Model (putEncryptObjectStream c ifx data))
        (putEncryptObjectStream c ifx data) = .ok data
    ∧ (∀ c' : Clerk, c'.secretKey ≠ c.secretKey →
        isError (getDecryptObjectStream c' c.deviceName ifx
          (sha256Model (putEncryptObjectStream c ifx data))
          (putEncryptObjectStream c ifx data)) = true)
    ∧ (∀ ct' : AgeCiphertext, ct' ≠ putEncryptObjectStream c ifx data →
        isError (getDecryptObjectStream c c.deviceName ifx
          (sha256Model (putEncryptObjectStream c ifx data)) ct') = true)
    ∧ (∀ d' : String, d' ≠ c.deviceName →
        isError (getDecryptObjectStream c d' ifx
          (sha256Model (putEncryptObjectStream c ifx data))
          (putEncryptObjectStream c ifx data)) = true)
    ∧ (∀ i' : String, i' ≠ ifx →
        isError (getDecryptObjectStream c c.deviceName i'
          (sha256Model (putEncryptObjectStream c ifx data))
          (putEncryptObjectStream c ifx data)) = true)
    ∧ (∀ h' : AgeCiphertext, h' ≠ sha256Model (putEncryptObjectStream c ifx data) →
        isError (getDecryptObjectStream c c.deviceName ifx h'
          (putEncryptObjectStream c ifx data)) = true)
    ∧ (∀ m : AgeMessage, m.header.version ≠ cryptapiVersion →
        isError (getDecryptObjectStream c c.deviceName ifx
          (sha256Model (ageEncrypt c.secretKey m))
          (ageEncrypt c.secretKey m)) = true) := by
  refine ⟨?_, ?_, ?_, ?_, ?_, ?_, ?_⟩
  · simp [getDecryptObjectStream, putEncryptObjectStream, sha256Model, ageEncrypt, ageDecrypt]
  · intro c' h
    simp [getDecryptObjectStream, putEncryptObjectStream, sha256Model, ageEncrypt,
      ageDecrypt, isError, Ne.symm h]
  · intro ct' h
    simp [getDecryptObjectStream, sha256Model, isError, h]
  · intro d' h
    simp [getDecryptObjectStream, putEncryptObjectStream, sha256Model, ageEncrypt,
      ageDecrypt, isError, Ne.symm h]
  · intro i' h
    simp [getDecryptObjectStream, putEncryptObjectStream, sha256Model, ageEncrypt,
      ageDecrypt, isError, Ne.symm h]
  · intro h' h
    have h2 : putEncryptObjectStream c ifx data ≠ h' := by
      simpa [sha256Model, eq_comm] using h
    simp [getDecryptObjectStream, sha256Model, isError, h2]
  · intro m h
    simp [getDecryptObjectStream, sha256Model, ageEncrypt, ageDecrypt, isError, h]

/-- Closed instance of `c1_put_get_roundtrip`, discharging its hypotheses at
concrete inputs. -/
theorem c1_put_get_roundtrip_witness :
    getDecryptObjectStream ⟨"k", "d"⟩ "d" "up"
        (sha256Model (putEncryptObjectStream ⟨"k", "d"⟩ "up" [7, 8]))
        (putEncryptObjectStream ⟨"k", "d"⟩ "up" [7, 8]) = .ok [7, 8]
    ∧ isError (getDecryptObjectStream ⟨"k2", "d"⟩ "d" "up"
        (sha256Model (putEncryptObjectStream ⟨"k", "d"⟩ "up" [7, 8]))
        (putEncryptObjectStream ⟨"k", "d"⟩ "up" [7, 8])) = true
    ∧ isError (getDecryptObjectStream ⟨"k", "d"⟩ "d" "up"
        (sha256Model (putEncryptObjectStream ⟨"k", "d"⟩ "up" [7, 8]))
        (putEncryptObjectStream ⟨"k", "d"⟩ "up" [7, 9])) = true
    ∧ isError (getDecryptObjectStream ⟨"k", "d"⟩ "e" "up"
        (sha256Model (putEncryptObjectStream ⟨"k", "d"⟩ "up" [7, 8]))
        (putEncryptObjectStream ⟨"k", "d"⟩ "up" [7, 8])) = true := by
  refine ⟨(c1_put_get_roundtrip ⟨"k", "d"⟩ "up" [7, 8]).1,
    (c1_put_get_roundtrip ⟨"k", "d"⟩ "up" [7, 8]).2.1 ⟨"k2", "d"⟩ (by decide),
    (c1_put_get_roundtrip ⟨"k", "d"⟩ "up" [7, 8]).2.2.1 (putEncryptObjectStream ⟨"k", "d"⟩ "up" [7, 9]) (by decide),
    (c1_put_get_roundtrip ⟨"k", "d"⟩ "up" [7, 8]).2.2.2.1 "e" (by decide)⟩

/-- C2: `GetDecryptObjectStream` errors when the digest of the download
differs from the path's hash component, or when the decrypted envelope's
version is not 1, or when its device or infix differs from the path
component; and it returns a plaintext only when all four checks pass. -/
theorem c2_get_decrypt_checks (c : Clerk) (device ifx : String)
    (hash downloaded : AgeCiphertext) :
    (sha256Model downloaded ≠ hash →
      isError (getDecryptObjectStream c device ifx hash downloaded) = true)
    ∧ (∀ m : AgeMessage, ageDecrypt c.secretKey downloaded = some m →
        (m.header.version ≠ cryptapiVersion ∨ m.header.device ≠ device ∨
            m.header.ifx ≠ ifx) →
        isError (getDecryptObjectStream c device ifx hash downloaded) = true)
    ∧ (∀ p : List Nat, getDecryptObjectStream c device ifx hash downloaded = .ok p →
        sha256Model downloaded = hash ∧
          ∃ m : AgeMessage, ageDecrypt c.secretKey downloaded = some m ∧
            m.header.version = cryptapiVersion ∧ m.header.device = device ∧
            m.header.ifx = ifx ∧ p = m.payload) := by
  refine ⟨?_, ?_, ?_⟩
  · intro h
    simp [getDecryptObjectStream, h, isError]
  · intro m hm hbad
    unfold getDecryptObjectStream
    split
    · rfl
    · simp only [hm]
      split
      · rfl
      · split
        · rfl
        · split
          · rfl
          · rename_i hv hd hi
            rcases hbad with h | h | h
            · exact absurd (not_ne_iff.mp hv) h
            · exact absurd (not_ne_iff.mp hd) h
            · exact absurd (not_ne_iff.mp hi) h
  · intro p hp
    unfold getDecryptObjectStream at hp
    split at hp
    · cases hp
    · rename_i hhash
      split at hp
      · cases hp
      · rename_i m hm
        split at hp
        · cases hp
        · rename_i hv
          split at hp
          · cases hp
          · rename_i hd
            split at hp
            · cases hp
            · rename_i hi
              refine ⟨not_ne_iff.mp hhash, m, hm, not_ne_iff.mp hv,
                not_ne_iff.mp hd, not_ne_iff.mp hi, ?_⟩
              cases hp
              rfl

/-- Closed instance of `c2_get_decrypt_checks`, discharging its hypotheses at
concrete inputs. -/
theorem c2_get_decrypt_checks_witness :
    isError (getDecryptObjectStream ⟨"k", "d"⟩ "d" "up"
        (sha256Model (ageEncrypt "k" ⟨⟨2, "d", "up"⟩, [1]⟩))
        (ageEncrypt "k" ⟨⟨2, "d", "up"⟩, [1]⟩)) = true
    ∧ (sha256Model (ageEncrypt "k" ⟨⟨1, "d", "up"⟩, [1]⟩) =
          sha256Model (ageEncrypt "k" ⟨⟨1, "d", "up"⟩, [1]⟩) ∧
        ∃ m : AgeMessage,
          ageDecrypt "k" (ageEncrypt "k" ⟨⟨1, "d", "up"⟩, [1]⟩) = some m ∧
            m.header.version = cryptapiVersion ∧ m.header.device = "d" ∧
            m.header.ifx = "up" ∧ [1] = m.payload) := by
  constructor
  · exact (c2_get_decrypt_checks ⟨"k", "d"⟩ "d" "up"
      (sha256Model (ageEncrypt "k" ⟨⟨2, "d", "up"⟩, [1]⟩))
      (ageEncrypt "k" ⟨⟨2, "d", "up"⟩, [1]⟩)).2.1 ⟨⟨2, "d", "up"⟩, [1]⟩
      (by decide) (by left; decide)
  · exact (c2_get_decrypt_checks ⟨"k", "d"⟩ "d" "up"
      (sha256Model (ageEncrypt "k" ⟨⟨1, "d", "up"⟩, [1]⟩))
      (ageEncrypt "k" ⟨⟨1, "d", "up"⟩, [1]⟩)).2.2 [1] (by rfl)

/-! ### Reference helper: merge-ancestor analysis (`helper.mergeCommits`) -/

/-- A non-disputed result of the merge loop is one of the commits that were
examined. -/
theorem mergeLoop_mem (anc : String → String → Bool) (p : String)
    (l : List String) (h : mergeLoop anc p l ≠ "") :
    mergeLoop anc p l ∈ p :: l := by
  induction l generalizing p with
  | nil => simp [mergeLoop]
  | cons x rest ih =>
    unfold mergeLoop at h ⊢
    by_cases h1 : anc p x = true
    · rw [if_pos h1] at h ⊢
      exact List.mem_cons_of_mem p (ih x h)
    · rw [if_neg h1] at h ⊢
      by_cases h2 : anc x p = true
      · rw [if_pos h2] at h ⊢
        rcases List.mem_cons.mp (ih p h) with heq | hmem
        · rw [heq]
          exact List.mem_cons_self _ _
        · exact List.mem_cons_of_mem p (List.mem_cons_of_mem x hmem)
      · rw [if_neg h2] at h
        exact absurd rfl h

/-- For a transitive ancestor relation, a non-disputed result of the merge
loop is reachable (by ancestry) from every examined commit. -/
theorem mergeLoop_upper (anc : String → String → Bool)
    (htrans : ∀ a b c, anc a b = true → anc b c = true → anc a c = true)
    (p : String) (l : List String) (h : mergeLoop anc p l ≠ "") :
    ∀ c ∈ p :: l, c = mergeLoop anc p l ∨ anc c (mergeLoop anc p l) = true := by
  induction l generalizing p with
  | nil =>
    intro c hc
    simp only [List.mem_singleton] at hc
    simp [mergeLoop, hc]
  | cons x rest ih =>
    intro c hc
    unfold mergeLoop at h ⊢
    by_cases h1 : anc p x = true
    · rw [if_pos h1] at h ⊢
      rcases List.mem_cons.mp hc with heq | hc'
      · subst heq
        rcases ih x h x (List.mem_cons_self _ _) with heq2 | hanc
        · exact Or.inr (heq2 ▸ h1)
        · exact Or.inr (htrans c x _ h1 hanc)
      · exact ih x h c hc'
    · rw [if_neg h1] at h ⊢
      by_cases h2 : anc x p = true
      · rw [if_pos h2] at h ⊢
        rcases List.mem_cons.mp hc with heq | hc'
        · subst heq
          exact ih c h c (List.mem_cons_self _ _)
        · rcases List.mem_cons.mp hc' with heq | hc''
          · subst heq
            rcases ih p h p (List.mem_cons_self _ _) with heq2 | hanc
            · exact Or.inr (heq2 ▸ h2)
            · exact Or.inr (htrans c p _ h2 hanc)
          · exact ih p h c (List.mem_cons_of_mem _ hc'')
      · rw [if_neg h2] at h
        exact absurd rfl h

/-- C3 counterexample: `merge_commits` is not invariant under permutation of
its input.  With commits `a` and `b` unrelated and `c` a descendant of both,
the order `[a, b, c]` is reported disputed while its permutation `[a, c, b]`
yields `c`, so neither the non-empty winner nor the disputed cases are
preserved by reordering. -/
theorem c3_perm_counterexample :
    (["a", "b", "c"] : List String).Perm ["a", "c", "b"]
    ∧ mergeCommits ancEx ["a", "b", "c"] = ""
    ∧ mergeCommits ancEx ["a", "c", "b"] = "c" := by
  refine ⟨by decide, by decide, by decide⟩

/-- C3 (amended): for a transitive ancestor relation, two orderings of the
commit list that both produce a non-disputed result produce the same commit
up to mutual ancestry (hence equal ancestor sets); whether the result is
disputed, however, can depend on the ordering. -/
theorem c3_merge_commits_perm (anc : String → String → Bool)
    (htrans : ∀ a b c, anc a b = true → anc b c = true → anc a c = true)
    (l₁ l₂ : List String) (hperm : l₁.Perm l₂)
    (h₁ : mergeCommits anc l₁ ≠ "") (h₂ : mergeCommits anc l₂ ≠ "") :
    mergeCommits anc l₁ = mergeCommits anc l₂ ∨
      (anc (mergeCommits anc l₁) (mergeCommits anc l₂) = true ∧
        anc (mergeCommits anc l₂) (mergeCommits anc l₁) = true) := by
  match l₁, l₂ with
  | [], _ => exact absurd rfl h₁
  | _ :: _, [] => exact absurd rfl h₂
  | a :: t₁, b :: t₂ =>
    have hm₁ : mergeCommits anc (a :: t₁) ∈ a :: t₁ := mergeLoop_mem anc a t₁ h₁
    have hm₂ : mergeCommits anc (b :: t₂) ∈ b :: t₂ := mergeLoop_mem anc b t₂ h₂
    have hin₂ : mergeCommits anc (a :: t₁) ∈ b :: t₂ := hperm.mem_iff.mp hm₁
    have hin₁ : mergeCommits anc (b :: t₂) ∈ a :: t₁ := hperm.mem_iff.mpr hm₂
    rcases mergeLoop_upper anc htrans b t₂ h₂ _ hin₂ with heq | hanc₁
    · exact Or.inl heq
    · rcases mergeLoop_upper anc htrans a t₁ h₁ _ hin₁ with heq | hanc₂
      · exact Or.inl heq.symm
      · exact Or.inr ⟨hanc₁, hanc₂⟩

/-- Closed instance of `c3_merge_commits_perm`, discharging its hypotheses at
concrete inputs. -/
theorem c3_merge_commits_perm_witness :
    mergeCommits ancTotal ["x", "y"] = mergeCommits ancTotal ["y", "x"] ∨
      (ancTotal (mergeCommits ancTotal ["x", "y"]) (mergeCommits ancTotal ["y", "x"]) = true ∧
        ancTotal (mergeCommits ancTotal ["y", "x"]) (mergeCommits ancTotal ["x", "y"]) = true) :=
  c3_merge_commits_perm ancTotal (fun _ _ _ _ _ => rfl) ["x", "y"] ["y", "x"]
    (by decide) (by decide) (by decide)

theorem foldl_mergeStepSpec_none (anc : String → String → Bool)
    (l : List String) : l.foldl (mergeStepSpec anc) none = none := by
  induction l with
  | nil => rfl
  | cons x rest ih => simpa [mergeStepSpec] using ih

theorem mergeLoop_eq_foldl (anc : String → String → Bool) (p : String)
    (l : List String) :
    mergeLoop anc p l = (l.foldl (mergeStepSpec anc) (some p)).getD "" := by
  induction l generalizing p with
  | nil => rfl
  | cons x rest ih =>
    unfold mergeLoop
    by_cases h1 : anc p x = true
    · rw [if_pos h1]
      simp only [List.foldl_cons, mergeStepSpec, if_pos h1]
      exact ih x
    · rw [if_neg h1]
      by_cases h2 : anc x p = true
      · rw [if_pos h2]
        simp only [List.foldl_cons, mergeStepSpec, if_neg h1, if_pos h2]
        exact ih p
      · rw [if_neg h2]
        simp only [List.foldl_cons, mergeStepSpec, if_neg h1, if_neg h2]
        rw [foldl_mergeStepSpec_none]
        rfl

/-- C4: `merge_commits` computes exactly the algorithm stated in the spec:
start with the first commit as the proposal, replace the proposal by every
later commit it is an ancestor of, keep it against every later commit that
is an ancestor of it, and report disputed (empty string) as soon as a later
commit is neither. -/
theorem c4_merge_commits_algorithm (anc : String → String → Bool)
    (first : String) (rest : List String) :
    mergeCommits anc (first :: rest) = mergeCommitsSpec anc (first :: rest) := by
  simpa [mergeCommits, mergeCommitsSpec] using mergeLoop_eq_foldl anc first rest

theorem splitOnChar_ne_nil (sep : Char) (l : List Char) :
    splitOnChar sep l ≠ [] := by
  cases l with
  | nil => simp [splitOnChar]
  | cons c rest =>
    unfold splitOnChar
    split
    · simp
    · split <;> simp

theorem splitOnChar_sep_free (sep : Char) (l : List Char)
    (h : ∀ c ∈ l, c ≠ sep) : splitOnChar sep l = [l] := by
  induction l with
  | nil => rfl
  | cons c rest ih =>
    unfold splitOnChar
    simp only [ih (fun x hx => h x (List.mem_cons_of_mem c hx))]
    rw [if_neg (h c (List.mem_cons_self _ _))]

theorem splitOnChar_append_sep (sep : Char) (g rest : List Char)
    (h : ∀ c ∈ g, c ≠ sep) :
    splitOnChar sep (g ++ sep :: rest) = g :: splitOnChar sep rest := by
  induction g with
  | nil =>
    simp only [List.nil_append]
    cases h2 : splitOnChar sep rest with
    | nil => exact absurd h2 (splitOnChar_ne_nil sep rest)
    | cons g0 gs =>
      unfold splitOnChar
      simp [h2]
  | cons c g' ih =>
    have hc : c ≠ sep := h c (List.mem_cons_self _ _)
    have ih' := ih (fun x hx => h x (List.mem_cons_of_mem c hx))
    simp only [List.cons_append, splitOnChar, List.append_eq, ih']
    rw [if_neg hc]

theorem flatten_splitOnChar (sep : Char) (l : List Char) :
    (splitOnChar sep l).flatten = l.filter (fun c => decide (c ≠ sep)) := by
  induction l with
  | nil => rfl
  | cons c rest ih =>
    unfold splitOnChar
    cases h2 : splitOnChar sep rest with
    | nil => exact absurd h2 (splitOnChar_ne_nil sep rest)
    | cons g0 gs =>
      rw [h2] at ih
      simp only [List.flatten_cons] at ih
      by_cases h : c = sep
      · simp only [h2, if_pos h, List.flatten_cons, List.nil_append]
        rw [ih, h]
        simp
      · simp only [h2, if_neg h, List.flatten_cons, List.cons_append]
        rw [ih]
        simp [h]

theorem strfoldl_data (groups : List (List Char)) :
    ∀ acc : String,
      (groups.map (fun g => (⟨g⟩ : String))).foldl (fun r s => r ++ s) acc
        = ⟨acc.data ++ groups.flatten⟩ := by
  induction groups with
  | nil =>
    intro acc
    simp only [List.map_nil, List.foldl_nil, List.flatten_nil, List.append_nil]
  | cons g gs ih =>
    intro acc
    simp only [List.map_cons, List.foldl_cons]
    rw [ih]
    simp [String.data_append, List.flatten_cons]

theorem join_map_mk (groups : List (List Char)) :
    String.join (groups.map (fun g => (⟨g⟩ : String))) = ⟨groups.flatten⟩ := by
  have := strfoldl_data groups ""
  simpa [String.join] using this

theorem splitOnChar_space_line (w1 w2 key p : List Char)
    (hw1 : ∀ c ∈ w1, c ≠ ' ') (hw2 : ∀ c ∈ w2, c ≠ ' ')
    (hk : ∀ c ∈ key, c ≠ ' ') :
    splitOnChar ' ' (w1 ++ ' ' :: (w2 ++ ' ' :: (key ++ ' ' :: p)))
      = w1 :: w2 :: key :: splitOnChar ' ' p := by
  rw [splitOnChar_append_sep ' ' w1 _ hw1, splitOnChar_append_sep ' ' w2 _ hw2,
    splitOnChar_append_sep ' ' key _ hk]

/-- C10: for every `TRANSFER STORE`/`TRANSFER RETRIEVE` line, the file path
handed to the helper is the path text with every space deleted (the
remaining space-separated fields joined with an empty separator); only a
path containing no space is passed through unmodified. -/
theorem c10_transfer_join_deletes_spaces (key p : String)
    (hkey : ∀ ch ∈ key.data, ch ≠ ' ') :
    parseTransferLine ("TRANSFER STORE " ++ key ++ " " ++ p)
        = some ("STORE", key, (⟨p.data.filter (fun ch => decide (ch ≠ ' '))⟩ : String))
    ∧ parseTransferLine ("TRANSFER RETRIEVE " ++ key ++ " " ++ p)
        = some ("RETRIEVE", key, (⟨p.data.filter (fun ch => decide (ch ≠ ' '))⟩ : String))
    ∧ (' ' ∈ p.data →
        (⟨p.data.filter (fun ch => decide (ch ≠ ' '))⟩ : String) ≠ p)
    ∧ (' ' ∉ p.data →
        (⟨p.data.filter (fun ch => decide (ch ≠ ' '))⟩ : String) = p) := by
  have main : ∀ dir : String, (∀ ch ∈ dir.data, ch ≠ ' ') →
      parseTransferLine ("TRANSFER " ++ dir ++ " " ++ key ++ " " ++ p)
        = (if dir = "STORE" ∨ dir = "RETRIEVE" then
            some (dir, key, (⟨p.data.filter (fun ch => decide (ch ≠ ' '))⟩ : String))
          else none) := by
    intro dir hdir
    have hdata : ("TRANSFER " ++ dir ++ " " ++ key ++ " " ++ p).data
        = "TRANSFER".data ++ ' ' :: (dir.data ++ ' ' :: (key.data ++ ' ' :: p.data)) := by
      have h1 : ("TRANSFER " : String).data = "TRANSFER".data ++ [' '] := by decide
      have h2 : (" " : String).data = [' '] := by decide
      simp [String.data_append, h1, h2]
    unfold parseTransferLine
    rw [hdata, splitOnChar_space_line "TRANSFER".data dir.data key.data p.data
      (by decide) hdir hkey]
    simp only [List.map_cons]
    have hrest : (splitOnChar ' ' p.data).map (fun g => (⟨g⟩ : String)) ≠ [] := by
      intro hc
      exact splitOnChar_ne_nil ' ' p.data (List.map_eq_nil_iff.mp hc)
    by_cases hd : dir = "STORE" ∨ dir = "RETRIEVE"
    · rw [if_pos hd]
      rw [if_pos (by exact ⟨by trivial, hd, hrest⟩)]
      rw [join_map_mk, flatten_splitOnChar]
    · rw [if_neg hd]
      rw [if_neg (by simp [hd])]
  refine ⟨?_, ?_, ?_, ?_⟩
  · have := main "STORE" (by decide)
    simpa using this
  · have := main "RETRIEVE" (by decide)
    simpa using this
  · intro hsp hc
    have hdata := congrArg String.data hc
    rw [← hdata] at hsp
    simp at hsp
  · intro hsp
    have : p.data.filter (fun ch => decide (ch ≠ ' ')) = p.data :=
      List.filter_eq_self.mpr (fun a ha => by
        simp only [decide_eq_true_eq]
        intro h
        exact hsp (h ▸ ha))
    rw [this]

/-- Closed instance of `c10_transfer_join_deletes_spaces`, discharging its
hypotheses at concrete inputs. -/
theorem c10_transfer_join_deletes_spaces_witness :
    parseTransferLine "TRANSFER STORE K1 my file.bin"
        = some ("STORE", "K1", "myfile.bin")
    ∧ ("myfile.bin" : String) ≠ "my file.bin" := by
  have h := c10_transfer_join_deletes_spaces "K1" "my file.bin" (by decide)
  refine ⟨?_, ?_⟩
  · have h1 := h.1
    have he : ("TRANSFER STORE " ++ "K1" ++ " " ++ "my file.bin" : String)
        = "TRANSFER STORE K1 my file.bin" := by decide
    rw [he] at h1
    rw [h1]
    decide
  · have h3 := h.2.2.1 (by decide)
    intro hc
    apply h3
    have he2 : (⟨("my file.bin" : String).data.filter (fun ch => decide (ch ≠ ' '))⟩ : String)
        = "myfile.bin" := by decide
    rw [he2, hc]

theorem isError_true_iff {ε α : Type} (r : Except ε α) :
    isError r = true ↔ ∃ e, r = .error e := by
  cases r <;> simp [isError]

theorem removeMergedPacks_missing (ps : List String) :
    ∀ (avail : List String) (q : String), q ∈ ps → q ∉ avail →
      isError (removeMergedPacks avail ps) = true := by
  induction ps with
  | nil => intro avail q hq _; cases hq
  | cons p ps' ih =>
    intro avail q hq hqa
    unfold removeMergedPacks
    by_cases hp : p ∈ avail
    · rw [if_pos hp]
      rcases List.mem_cons.mp hq with heq | hq'
      · exact absurd hp (heq ▸ hqa)
      · exact ih (avail.erase p) q hq' (fun hmem => hqa (List.mem_of_mem_erase hmem))
    · rw [if_neg hp]
      rfl

theorem removeMergedPacks_ok (ps : List String) :
    ∀ avail : List String, avail.Nodup → ps.Nodup → (∀ p ∈ ps, p ∈ avail) →
      removeMergedPacks avail ps
        = .ok (avail.filter (fun x => decide (x ∉ ps))) := by
  induction ps with
  | nil =>
    intro avail _ _ _
    simp [removeMergedPacks]
  | cons p ps' ih =>
    intro avail hnd hpnd hsub
    have hpnd' := List.nodup_cons.mp hpnd
    unfold removeMergedPacks
    rw [if_pos (hsub p (List.mem_cons_self _ _))]
    have hnd' : (avail.erase p).Nodup := hnd.erase p
    have hsub' : ∀ q ∈ ps', q ∈ avail.erase p := by
      intro q hq
      refine (List.mem_erase_of_ne ?_).mpr (hsub q (List.mem_cons_of_mem _ hq))
      intro hqp
      subst hqp
      exact hpnd'.1 hq
    rw [ih (avail.erase p) hnd' hpnd'.2 hsub']
    congr 1
    rw [hnd.erase_eq_filter p, List.filter_filter]
    apply List.filter_congr
    intro x _
    by_cases h1 : x = p <;> by_cases h2 : x ∈ ps' <;> simp [h1, h2]

theorem classifyPushes_ok (l : List String)
    (hwf : ∀ p ∈ l, wellFormedPath p = true) :
    classifyPushes l = .ok (l.filterMap pushEntry) := by
  induction l with
  | nil => rfl
  | cons p ps ih =>
    have hw := hwf p (List.mem_cons_self _ _)
    have ih' := ih (fun x hx => hwf x (List.mem_cons_of_mem p hx))
    cases hsp : splitPath p with
    | none => simp [wellFormedPath, hsp] at hw
    | some t =>
      obtain ⟨dev, ifx, hsh⟩ := t
      cases hdec : infixDecode ifx with
      | error e => simp [wellFormedPath, hsp, hdec] at hw
      | ok o =>
        cases o with
        | none =>
          have hpi : packInfo p = none := by simp [packInfo, hsp, hdec]
          simp only [classifyPushes, hsp, hdec, ih', List.filterMap_cons,
            pushEntry, hpi]
        | some dg =>
          obtain ⟨d, g⟩ := dg
          have hpi : packInfo p = some (dev, d, g) := by
            simp [packInfo, hsp, hdec]
          simp only [classifyPushes, hsp, hdec, ih', List.filterMap_cons,
            pushEntry, hpi]

theorem map_fst_pushEntries (l : List String) :
    (l.filterMap pushEntry).map Prod.fst = l.filter isPushPath := by
  induction l with
  | nil => rfl
  | cons p ps ih =>
    cases hpi : packInfo p with
    | none =>
      simp only [List.filterMap_cons, List.filter_cons, pushEntry, hpi,
        isPushPath]
      simpa using ih
    | some t =>
      obtain ⟨dev, d, g⟩ := t
      simp only [List.filterMap_cons, List.filter_cons, pushEntry, hpi,
        isPushPath, List.map_cons]
      simpa using ih

theorem pushEntry_key (l : List String) (e : String × Nat)
    (he : e ∈ l.filterMap pushEntry) : e.2 = pushKeyD e.1 := by
  rcases List.mem_filterMap.mp he with ⟨p, _, hp⟩
  unfold pushEntry at hp
  cases hpi : packInfo p with
  | none => rw [hpi] at hp; cases hp
  | some t =>
    obtain ⟨dev, d, g⟩ := t
    rw [hpi] at hp
    cases hp
    simp [pushKeyD, hpi]

/-- C5: the packs chosen for download by `synch` are exactly the bucket
paths minus `merged_packs`, restricted to push infixes (other namespaces
are skipped without error), ordered by ascending global index; and a merged
pack that is absent from the bucket listing makes the operation fail before
anything is downloaded. -/
theorem c5_list_downloads_selection (objects mergedPacks : List String) :
    ((∃ q ∈ mergedPacks, q ∉ objects) →
      isError (listDownloads objects mergedPacks) = true)
    ∧ (mergedPacks.Nodup → (∀ q ∈ mergedPacks, q ∈ objects) →
        (∀ p ∈ objects, wellFormedPath p = true) →
        ∃ l, listDownloads objects mergedPacks = .ok l
          ∧ l.Perm ((objects.dedup.filter
              (fun p => decide (p ∉ mergedPacks))).filter isPushPath)
          ∧ l.Pairwise (fun a b => pushKeyD a ≤ pushKeyD b)) := by
  constructor
  · rintro ⟨q, hq, hqo⟩
    have hmiss := removeMergedPacks_missing mergedPacks objects.dedup q hq
      (fun hmem => hqo (List.mem_dedup.mp hmem))
    rcases (isError_true_iff _).mp hmiss with ⟨e, he⟩
    simp [listDownloads, he, isError]
  · intro hnd hsub hwf
    have hrm := removeMergedPacks_ok mergedPacks objects.dedup
      (List.nodup_dedup objects) hnd
      (fun q hq => List.mem_dedup.mpr (hsub q hq))
    have hcl := classifyPushes_ok
      (objects.dedup.filter (fun x => decide (x ∉ mergedPacks)))
      (fun p hp => hwf p (List.mem_dedup.mp (List.mem_of_mem_filter hp)))
    have hld : listDownloads objects mergedPacks
        = .ok ((((objects.dedup.filter
            (fun x => decide (x ∉ mergedPacks))).filterMap
              pushEntry).insertionSort globalLE).map Prod.fst) := by
      simp only [listDownloads, hrm, hcl]
    refine ⟨_, hld, ?_, ?_⟩
    · have hperm := List.perm_insertionSort globalLE
        ((objects.dedup.filter (fun x => decide (x ∉ mergedPacks))).filterMap
          pushEntry)
      have := hperm.map Prod.fst
      rw [map_fst_pushEntries] at this
      exact this
    · set keyed := (objects.dedup.filter
        (fun x => decide (x ∉ mergedPacks))).filterMap pushEntry with hk
      have hsorted : List.Pairwise globalLE (keyed.insertionSort globalLE) :=
        List.sorted_insertionSort globalLE keyed
      have hmem : ∀ e ∈ keyed.insertionSort globalLE, e.2 = pushKeyD e.1 :=
        fun e he => pushEntry_key _ e ((List.perm_insertionSort globalLE keyed).mem_iff.mp he)
      have hpw : List.Pairwise (fun a b : String × Nat =>
          pushKeyD a.1 ≤ pushKeyD b.1) (keyed.insertionSort globalLE) := by
        refine hsorted.imp_of_mem ?_
        intro a b ha hb hab
        rw [← hmem a ha, ← hmem b hb]
        exact hab
      exact List.pairwise_map.mpr hpw

/-- Closed instance of `c5_list_downloads_selection`, discharging its
hypotheses at concrete inputs. -/
theorem c5_list_downloads_selection_witness :
    isError (listDownloads ["d/push-0-0#a"] ["d/push-0-1#b"]) = true
    ∧ ∃ l, listDownloads
          ["d/push-0-1#b", "d/upload-ff#c", "e/push-0-0#a"] ["d/push-0-1#b"]
        = .ok l
      ∧ l.Perm (((["d/push-0-1#b", "d/upload-ff#c", "e/push-0-0#a"] : List String).dedup.filter
          (fun p => decide (p ∉ (["d/push-0-1#b"] : List String)))).filter isPushPath)
      ∧ l.Pairwise (fun a b => pushKeyD a ≤ pushKeyD b) := by
  constructor
  · exact (c5_list_downloads_selection ["d/push-0-0#a"] ["d/push-0-1#b"]).1
      ⟨"d/push-0-1#b", by decide, by decide⟩
  · exact (c5_list_downloads_selection
      ["d/push-0-1#b", "d/upload-ff#c", "e/push-0-0#a"] ["d/push-0-1#b"]).2
      (by decide) (by decide) (by decide)

theorem ownDeviceIndices_cons (p : String) (ps : List String)
    (deviceName dev : String) (d g : Nat)
    (hpi : packInfo p = some (dev, d, g)) :
    ownDeviceIndices (p :: ps) deviceName
      = if dev = deviceName then d :: ownDeviceIndices ps deviceName
        else ownDeviceIndices ps deviceName := by
  unfold ownDeviceIndices
  rw [List.filterMap_cons]
  by_cases hd : dev = deviceName
  · simp [hpi, hd]
  · simp [hpi, hd]

theorem allGlobalIndices_cons (p : String) (ps : List String)
    (dev : String) (d g : Nat) (hpi : packInfo p = some (dev, d, g)) :
    allGlobalIndices (p :: ps) = g :: allGlobalIndices ps := by
  unfold allGlobalIndices
  rw [List.filterMap_cons]
  simp [hpi]

theorem nextPackLoop_ok (deviceName : String) (ps : List String) :
    ∀ (nD nG : Nat) (obs : List Nat),
      (∀ p ∈ ps, (packInfo p).isSome) →
      (obs ++ ownDeviceIndices ps deviceName).Nodup →
      nextPackLoop deviceName ps nD nG obs
        = .ok ((ownDeviceIndices ps deviceName).foldl stepIdx nD,
            (allGlobalIndices ps).foldl stepIdx nG,
            obs ++ ownDeviceIndices ps deviceName) := by
  induction ps with
  | nil =>
    intro nD nG obs _ _
    simp [nextPackLoop, ownDeviceIndices, allGlobalIndices]
  | cons p ps' ih =>
    intro nD nG obs hwf hnd
    obtain ⟨t, hpi⟩ := Option.isSome_iff_exists.mp (hwf p (List.mem_cons_self _ _))
    obtain ⟨dev, d, g⟩ := t
    have hwf' : ∀ q ∈ ps', (packInfo q).isSome :=
      fun q hq => hwf q (List.mem_cons_of_mem _ hq)
    by_cases hdev : dev = deviceName
    · have howncons : ownDeviceIndices (p :: ps') deviceName
          = d :: ownDeviceIndices ps' deviceName := by
        rw [ownDeviceIndices_cons p ps' deviceName dev d g hpi, if_pos hdev]
      rw [howncons] at hnd ⊢
      rw [allGlobalIndices_cons p ps' dev d g hpi]
      unfold nextPackLoop
      simp only [hpi]
      rw [if_pos hdev]
      have hnd' : ((obs ++ [d]) ++ ownDeviceIndices ps' deviceName).Nodup := by
        rw [List.append_assoc, List.singleton_append]
        exact hnd
      have hdobs : d ∉ obs := by
        rcases List.nodup_append.mp hnd with ⟨_, _, hdisj⟩
        intro hmem
        exact hdisj hmem (List.mem_cons_self _ _)
      rw [if_neg hdobs]
      rw [ih (stepIdx nD d) (stepIdx nG g) (obs ++ [d]) hwf' hnd']
      rw [List.append_assoc, List.singleton_append]
      simp [List.foldl_cons]
    · have howncons : ownDeviceIndices (p :: ps') deviceName
          = ownDeviceIndices ps' deviceName := by
        rw [ownDeviceIndices_cons p ps' deviceName dev d g hpi, if_neg hdev]
      rw [howncons] at hnd ⊢
      rw [allGlobalIndices_cons p ps' dev d g hpi]
      unfold nextPackLoop
      simp only [hpi]
      rw [if_neg hdev]
      rw [ih nD (stepIdx nG g) obs hwf' hnd]
      simp [List.foldl_cons]

theorem nextPackLoop_dup (deviceName : String) (ps : List String) :
    ∀ (nD nG : Nat) (obs : List Nat),
      (∀ p ∈ ps, (packInfo p).isSome) →
      obs.Nodup →
      ¬ (obs ++ ownDeviceIndices ps deviceName).Nodup →
      isError (nextPackLoop deviceName ps nD nG obs) = true := by
  induction ps with
  | nil =>
    intro nD nG obs _ hobs hnot
    exact absurd (by simpa [ownDeviceIndices] using hobs) hnot
  | cons p ps' ih =>
    intro nD nG obs hwf hobs hnot
    obtain ⟨t, hpi⟩ := Option.isSome_iff_exists.mp (hwf p (List.mem_cons_self _ _))
    obtain ⟨dev, d, g⟩ := t
    have hwf' : ∀ q ∈ ps', (packInfo q).isSome :=
      fun q hq => hwf q (List.mem_cons_of_mem _ hq)
    rw [ownDeviceIndices_cons p ps' deviceName dev d g hpi] at hnot
    unfold nextPackLoop
    simp only [hpi]
    by_cases hdev : dev = deviceName
    · rw [if_pos hdev] at hnot ⊢
      by_cases hdobs : d ∈ obs
      · rw [if_pos hdobs]
        rfl
      · rw [if_neg hdobs]
        refine ih (stepIdx nD d) (stepIdx nG g) (obs ++ [d]) hwf' ?_ ?_
        · refine List.Nodup.append hobs (List.nodup_singleton d) ?_
          intro x hx hxd
          rw [List.mem_singleton] at hxd
          exact hdobs (hxd ▸ hx)
        · rw [List.append_assoc, List.singleton_append]
          exact hnot
    · rw [if_neg hdev] at hnot ⊢
      exact ih nD (stepIdx nG g) obs hwf' hobs hnot

theorem stepIdx_eq_max (a d : Nat) (h : d + 1 < U64) :
    stepIdx a d = max a (d + 1) := by
  unfold stepIdx
  rw [Nat.mod_eq_of_lt h]
  by_cases hd : d ≥ a
  · rw [if_pos hd, Nat.max_eq_right (Nat.le_succ_of_le hd)]
  · rw [if_neg hd, Nat.max_eq_left (Nat.succ_le_of_lt (Nat.lt_of_not_le hd))]

theorem foldl_stepIdx (l : List Nat) :
    ∀ a : Nat, (∀ d ∈ l, d + 1 < U64) →
      l.foldl stepIdx a = max a (l.foldr (fun d r => max (d + 1) r) 0) := by
  induction l with
  | nil => intro a _; simp
  | cons d l' ih =>
    intro a hb
    rw [List.foldl_cons, List.foldr_cons,
      ih (stepIdx a d) (fun x hx => hb x (List.mem_cons_of_mem _ hx)),
      stepIdx_eq_max a d (hb d (List.mem_cons_self _ _)), Nat.max_assoc]

theorem foldr_maxsucc (l : List Nat) (h : l ≠ []) :
    l.foldr (fun d r => max (d + 1) r) 0 = l.foldr max 0 + 1 := by
  induction l with
  | nil => exact absurd rfl h
  | cons d l' ih =>
    cases l' with
    | nil => simp
    | cons e l'' =>
      have ih' := ih (by simp)
      simp only [List.foldr_cons] at ih' ⊢
      omega

theorem foldl_stepIdx_zero (l : List Nat) (h : ∀ d ∈ l, d + 1 < U64) :
    l.foldl stepIdx 0 = succOfMax l := by
  cases hl : l with
  | nil => simp [succOfMax]
  | cons d l' =>
    rw [← hl]
    rw [foldl_stepIdx l 0 h, Nat.zero_max,
      foldr_maxsucc l (by rw [hl]; simp)]
    unfold succOfMax
    rw [if_neg (by rw [hl]; simp)]

/-- C6 (amended): provided the device and global indices stay below
2^64 − 1 (no Go uint64 wraparound), `nextPackName` returns
`push-D-G` with `D` one more than the maximum own device index (0 if none)
and `G` one more than the maximum global index over all packs (0 if none);
it fails on a duplicate own device index and on own device indices that are
not contiguous from 0.  At the uint64 boundary the increments wrap modulo
2^64 instead (see the counterexample). -/
theorem c6_next_pack_name (mergedPacks : List String) (deviceName : String)
    (hwf : ∀ p ∈ mergedPacks, (packInfo p).isSome)
    (hbD : ∀ d ∈ ownDeviceIndices mergedPacks deviceName, d + 1 < U64)
    (hbG : ∀ g ∈ allGlobalIndices mergedPacks, g + 1 < U64) :
    (((ownDeviceIndices mergedPacks deviceName).Nodup ∧
        (∀ i < succOfMax (ownDeviceIndices mergedPacks deviceName),
          i ∈ ownDeviceIndices mergedPacks deviceName)) →
      nextPackName mergedPacks deviceName
        = .ok (infixEncode
            (succOfMax (ownDeviceIndices mergedPacks deviceName))
            (succOfMax (allGlobalIndices mergedPacks))))
    ∧ (¬ (ownDeviceIndices mergedPacks deviceName).Nodup →
        isError (nextPackName mergedPacks deviceName) = true)
    ∧ (((ownDeviceIndices mergedPacks deviceName).Nodup ∧
        ∃ i < succOfMax (ownDeviceIndices mergedPacks deviceName),
          i ∉ ownDeviceIndices mergedPacks deviceName) →
        isError (nextPackName mergedPacks deviceName) = true) := by
  refine ⟨?_, ?_, ?_⟩
  · rintro ⟨hnd, hcont⟩
    unfold nextPackName
    rw [nextPackLoop_ok deviceName mergedPacks 0 0 [] hwf (by simpa using hnd)]
    simp only [List.nil_append]
    rw [foldl_stepIdx_zero _ hbD, foldl_stepIdx_zero _ hbG]
    rw [if_pos ?_]
    rw [List.all_eq_true]
    intro i hi
    rw [List.mem_range] at hi
    exact decide_eq_true (hcont i hi)
  · intro hnd
    unfold nextPackName
    have := nextPackLoop_dup deviceName mergedPacks 0 0 [] hwf
      (List.nodup_nil) (by simpa using hnd)
    rcases (isError_true_iff _).mp this with ⟨e, he⟩
    rw [he]
    rfl
  · rintro ⟨hnd, i, hi, hnmem⟩
    unfold nextPackName
    rw [nextPackLoop_ok deviceName mergedPacks 0 0 [] hwf (by simpa using hnd)]
    simp only [List.nil_append]
    rw [foldl_stepIdx_zero _ hbD, foldl_stepIdx_zero _ hbG]
    rw [if_neg ?_]
    · rfl
    · rw [List.all_eq_true]
      intro hall
      have := hall i (List.mem_range.mpr hi)
      exact hnmem (of_decide_eq_true this)

/-- Closed instance of `c6_next_pack_name`, discharging its hypotheses at
concrete inputs. -/
theorem c6_next_pack_name_witness :
    nextPackName ["d/push-0-1#a", "e/push-0-0#b"] "d"
      = .ok (infixEncode
          (succOfMax (ownDeviceIndices ["d/push-0-1#a", "e/push-0-0#b"] "d"))
          (succOfMax (allGlobalIndices ["d/push-0-1#a", "e/push-0-0#b"])))
    ∧ isError (nextPackName ["d/push-0-0#a", "d/push-0-1#b"] "d") = true
    ∧ isError (nextPackName ["d/push-1-0#a"] "d") = true := by
  refine ⟨?_, ?_, ?_⟩
  · exact (c6_next_pack_name ["d/push-0-1#a", "e/push-0-0#b"] "d"
      (by decide) (by decide) (by decide)).1 ⟨by decide, by decide⟩
  · exact (c6_next_pack_name ["d/push-0-0#a", "d/push-0-1#b"] "d"
      (by decide) (by decide) (by decide)).2.1 (by decide)
  · exact (c6_next_pack_name ["d/push-1-0#a"] "d"
      (by decide) (by decide) (by decide)).2.2 ⟨by decide, 0, by decide, by decide⟩

/-- C6 counterexample: at the uint64 boundary the Go increment wraps.  A
(hostile) bucket pack named `push-18446744073709551615-0` for our own
device has device indices that are not contiguous from 0, yet
`nextPackName` succeeds, returning `push-0-1` (the next device index
18446744073709551615 + 1 wrapped to 0), instead of failing with a
contiguity error as the claim requires. -/
theorem c6_uint64_wrap_counterexample :
    ownDeviceIndices ["d/push-18446744073709551615-0#x"] "d" = [2 ^ 64 - 1]
    ∧ (0 : Nat) ∉ ownDeviceIndices ["d/push-18446744073709551615-0#x"] "d"
    ∧ nextPackName ["d/push-18446744073709551615-0#x"] "d" = .ok "push-0-1" := by
  refine ⟨by decide, by decide, by rfl⟩

/-- C7: after decoding a push destination into `(device, branch)`, a
`latest` device is rewritten so the branch update is recorded under the
caller's own device name (the resulting pack header carries the branch and
the pack is applied under the caller's device); otherwise the push fails
exactly when the decoded device differs from the caller's device name. -/
theorem c7_push_device_resolution (revParse : String → Option String)
    (anc : String → String → Bool) (deviceName : String)
    (db : List (String × List (String × String))) (ref : PushRef)
    (dev branch commit : String)
    (hdec : decodePseudoRef ref.dest = .ok (dev, branch))
    (hrev : revParse ref.source = some commit) :
    (dev = mergeDevice →
      preparePush revParse anc deviceName db [ref]
        = .ok (⟨githelperVersion, [(branch, commit)]⟩,
            [commit] ++ (dedupKeepFirst []
              (db.flatMap (fun d => d.2.map Prod.snd))).map
                (fun s => "^" ++ s)))
    ∧ (dev ≠ mergeDevice →
        (isError (preparePush revParse anc deviceName db [ref]) = true
          ↔ dev ≠ deviceName)) := by
  constructor
  · intro hlat
    unfold preparePush preparePushLoop preparePushStep
    simp only [hdec, hrev]
    rw [if_pos hlat]
    rfl
  · intro hnl
    constructor
    · intro herr hdev
      unfold preparePush preparePushLoop preparePushStep at herr
      simp only [hdec, hrev] at herr
      rw [if_neg hnl, if_neg (by simpa using hdev)] at herr
      simp [preparePushLoop, isError] at herr
    · intro hdev
      unfold preparePush preparePushLoop
      simp only [hdec]
      rw [if_neg hnl, if_pos hdev]
      rfl

/-- Closed instance of `c7_push_device_resolution`, discharging its
hypotheses at concrete inputs. -/
theorem c7_push_device_resolution_witness :
    preparePush (fun _ => some "c1") (fun _ _ => true) "d" []
        [⟨false, "src", "refs/heads/latest/main"⟩]
      = .ok (⟨githelperVersion, [("main", "c1")]⟩, ["c1"])
    ∧ (isError (preparePush (fun _ => some "c1") (fun _ _ => true) "d" []
        [⟨false, "src", "refs/heads/e/main"⟩]) = true ↔ ("e" : String) ≠ "d") := by
  constructor
  · have h := (c7_push_device_resolution (fun _ => some "c1") (fun _ _ => true)
      "d" [] ⟨false, "src", "refs/heads/latest/main"⟩ "latest" "main" "c1"
      (by rfl) rfl).1 rfl
    simpa using h
  · exact (c7_push_device_resolution (fun _ => some "c1") (fun _ _ => true)
      "d" [] ⟨false, "src", "refs/heads/e/main"⟩ "e" "main" "c1"
      (by rfl) rfl).2 (by decide)

theorem lookup_insertAssoc_ne {α : Type} (k k' : String) (v : α)
    (m : List (String × α)) (h : k' ≠ k) :
    (insertAssoc k v m).lookup k' = m.lookup k' := by
  induction m with
  | nil =>
    simp only [insertAssoc, List.lookup, beq_eq_false_iff_ne.mpr h]
  | cons kv rest ih =>
    obtain ⟨k0, v0⟩ := kv
    unfold insertAssoc
    by_cases h0 : k0 = k
    · subst h0
      rw [if_pos rfl]
      simp only [List.lookup, beq_eq_false_iff_ne.mpr h]
    · rw [if_neg h0]
      by_cases h1 : k' = k0
      · subst h1
        simp only [List.lookup, beq_self_eq_true]
      · simp only [List.lookup, beq_eq_false_iff_ne.mpr h1, ih]

/-- C9: ingesting a pack whose path device is the reserved name `latest`
fails before the RefDB is modified, and any sequence of successful pack
ingestions starting from a RefDB without a `latest` entry (a fresh RefDB,
or one persisted by this program and reloaded) leaves `device_branches`
without a `latest` entry. -/
theorem c9_no_latest_in_device_branches :
    (∀ (db : RefDBState) (packPath : String) (header : PackHeader),
      updateFromHeader db mergeDevice packPath header
        = .error "invalid device name")
    ∧ (∀ (packs : List (String × PackHeader)) (db db' : RefDBState),
        db.deviceBranches.lookup mergeDevice = none →
        ingestPacks db packs = .ok db' →
        db'.deviceBranches.lookup mergeDevice = none) := by
  constructor
  · intro db packPath header
    unfold updateFromHeader
    rw [if_pos rfl]
  · intro packs
    induction packs with
    | nil =>
      intro db db' h hok
      unfold ingestPacks at hok
      cases hok
      exact h
    | cons ph rest ih =>
      intro db db' h hok
      obtain ⟨packPath, header⟩ := ph
      unfold ingestPacks at hok
      cases hsp : splitPath packPath with
      | none => simp [hsp] at hok
      | some t =>
        obtain ⟨device, x1, x2⟩ := t
        simp only [hsp] at hok
        by_cases hd : device = mergeDevice
        · rw [updateFromHeader, if_pos hd] at hok
          cases hok
        · rw [updateFromHeader, if_neg hd] at hok
          refine ih _ db' ?_ hok
          rw [lookup_insertAssoc_ne device mergeDevice _ _
            (fun hh => hd hh.symm)]
          exact h

/-- Closed instance of `c9_no_latest_in_device_branches`, discharging its
hypotheses at concrete inputs. -/
theorem c9_no_latest_in_device_branches_witness :
    updateFromHeader ⟨[], []⟩ mergeDevice "latest/push-0-0#a" ⟨1, []⟩
      = .error "invalid device name"
    ∧ (RefDBState.deviceBranches
        ⟨[("d", [("main", "c1")])], ["d/push-0-0#a"]⟩).lookup mergeDevice
      = none := by
  constructor
  · exact c9_no_latest_in_device_branches.1 ⟨[], []⟩ "latest/push-0-0#a" ⟨1, []⟩
  · exact c9_no_latest_in_device_branches.2
      [("d/push-0-0#a", ⟨1, [("main", "c1")]⟩)] ⟨[], []⟩
      ⟨[("d", [("main", "c1")])], ["d/push-0-0#a"]⟩ (by rfl) (by rfl)

/-- C8 counterexample: when the key is found only by the refresh taken on a
cache miss, the cached listing state is *not* left unchanged: the refresh
replaces the cached map with one built from the bucket listing (now
containing the key), even though the store itself uploads nothing.  Here
the cache starts empty, the bucket lists the key's object, and the call
succeeds without uploading but returns a different cache state. -/
theorem c8_refresh_changes_cache_counterexample :
    transferStore (fun _ => "aa") ["d/upload-aa#h1"] true [] "K" "d/upload-aa#h2"
      = .ok ([("upload-aa", ⟨false, "d/upload-aa#h1"⟩)], none)
    ∧ ([("upload-aa", (⟨false, "d/upload-aa#h1"⟩ : ObjectMetadata))]
        ≠ ([] : List (String × ObjectMetadata))) := by
  refine ⟨by rfl, by decide⟩

/-- C8 (amended): `transfer_store` never uploads when the key's infix is
already present (in the cache, or in the bucket listing obtained by the
refresh on a cache miss); the cached map is left exactly unchanged when the
key was in the cache, and is the refreshed listing (not further modified by
the store) when the key was found only after the refresh; when the key is
absent everywhere the file is uploaded and the created path is added to the
cache. -/
theorem c8_transfer_store_idempotent (hmacOfKey : String → String)
    (bucket : List String) (objectMap : List (String × ObjectMetadata))
    (key putResult : String) :
    (∀ md : ObjectMetadata,
      objectMap.lookup (keyToInfix hmacOfKey key) = some md →
      md.err = false → md.objectPath ≠ "" →
      ∀ refresh : Bool,
        transferStore hmacOfKey bucket refresh objectMap key putResult
          = .ok (objectMap, none))
    ∧ (objectMap.lookup (keyToInfix hmacOfKey key) = none →
      ∀ (m2 : List (String × ObjectMetadata)) (md : ObjectMetadata),
        generateObjectMap bucket = .ok m2 →
        m2.lookup (keyToInfix hmacOfKey key) = some md →
        md.err = false → md.objectPath ≠ "" →
        transferStore hmacOfKey bucket true objectMap key putResult
          = .ok (m2, none))
    ∧ (objectMap.lookup (keyToInfix hmacOfKey key) = none →
      ∀ m2 : List (String × ObjectMetadata),
        generateObjectMap bucket = .ok m2 →
        m2.lookup (keyToInfix hmacOfKey key) = none →
        ∀ dev hsh : String,
          splitPath putResult = some (dev, keyToInfix hmacOfKey key, hsh) →
          transferStore hmacOfKey bucket true objectMap key putResult
            = .ok (insertAssoc (keyToInfix hmacOfKey key)
                ⟨false, putResult⟩ m2, some putResult)) := by
  refine ⟨?_, ?_, ?_⟩
  · intro md hmd herr hpath refresh
    unfold transferStore locateFile getObjectMetadata
    simp [hmd, herr, hpath]
  · intro hmiss m2 md hgen hmd herr hpath
    unfold transferStore locateFile getObjectMetadata
    simp [hmiss, hgen, hmd, herr, hpath]
  · intro hmiss m2 hgen hmd2 dev hsh hsplit
    unfold transferStore locateFile getObjectMetadata addObjectToList
    simp [hmiss, hgen, hmd2, hsplit]

/-- Closed instance of `c8_transfer_store_idempotent`, discharging its
hypotheses at concrete inputs. -/
theorem c8_transfer_store_idempotent_witness :
    transferStore (fun _ => "aa") [] false
        [("upload-aa", ⟨false, "d/upload-aa#h1"⟩)] "K" "d/upload-aa#h2"
      = .ok ([("upload-aa", ⟨false, "d/upload-aa#h1"⟩)], none)
    ∧ transferStore (fun _ => "aa") ["d/upload-aa#h1"] true [] "K2" "d/upload-aa#h2"
      = .ok ([("upload-aa", ⟨false, "d/upload-aa#h1"⟩)], none)
    ∧ transferStore (fun _ => "aa") [] true [] "K3" "d/upload-aa#h2"
      = .ok (insertAssoc "upload-aa" ⟨false, "d/upload-aa#h2"⟩ [],
          some "d/upload-aa#h2") := by
  refine ⟨?_, ?_, ?_⟩
  · exact (c8_transfer_store_idempotent (fun _ => "aa") []
      [("upload-aa", ⟨false, "d/upload-aa#h1"⟩)] "K" "d/upload-aa#h2").1
      ⟨false, "d/upload-aa#h1"⟩ (by rfl) rfl (by decide) false
  · exact (c8_transfer_store_idempotent (fun _ => "aa") ["d/upload-aa#h1"]
      [] "K2" "d/upload-aa#h2").2.1 (by rfl)
      [("upload-aa", ⟨false, "d/upload-aa#h1"⟩)] ⟨false, "d/upload-aa#h1"⟩
      (by rfl) (by rfl) rfl (by decide)
  · exact (c8_transfer_store_idempotent (fun _ => "aa") [] [] "K3"
      "d/upload-aa#h2").2.2 (by rfl) [] (by rfl) (by rfl) "d" "h2" (by decide)

end Nightmarket
